import Mathlib

/-!
Shallow embedding of the Music-Protocol record-yrec contracts:

* `YREC` models `src/contracts/YRECTokenFlexible.sol` (contract
  `YRECTokenFlexible`): the ERC-20 style ledger with 1:1 IP-value backing,
  whitelist compliance gating, and role-based access control.  Machine
  integers (`uint256`) are modeled as `Nat`; Solidity 0.8 checked
  arithmetic is modeled by explicit underflow guards that produce an
  error, matching revert-on-underflow.  Addresses are naturals with
  `address(0) = 0`.  Event emission is tracked in the result; on a revert
  the error payload carries the events that the reverting execution had
  emitted before the revert (the EVM discards them, but the code path did
  emit them first, which is what the spec talks about).
* `MS` models `src/contracts/SimpleMultisig.sol` (the nonce-protected
  variant, the first contract in the file): the owner set, the
  transaction store, per-owner confirmations, the nonce counter, and the
  permanent replay set of executed transaction hashes.  The external
  `call` performed on execution is modeled as a boolean-valued function
  of the state visible at call time; `keccak256(abi.encodePacked(...))`
  is modeled as the injective tuple of its preimage.
-/

/-- Boolean success test on `Except`. -/
def isOkB {ε α : Type} : Except ε α → Bool
  | .ok _ => true
  | .error _ => false

namespace YREC

/-- Addresses are modeled as naturals; `address(0)` is `0`. -/
abbrev Addr := Nat

/-- Role identifier for `DEFAULT_ADMIN_ROLE` (the `bytes32` role tags of the
contract are modeled as distinct naturals). -/
def DEFAULT_ADMIN_ROLE : Nat := 0

/-- Role identifier for `MINTER_ROLE`. -/
def MINTER_ROLE : Nat := 1

/-- Role identifier for `BURNER_ROLE`. -/
def BURNER_ROLE : Nat := 2

/-- Role identifier for `PAUSER_ROLE`. -/
def PAUSER_ROLE : Nat := 3

/-- Role identifier for `UPGRADER_ROLE`. -/
def UPGRADER_ROLE : Nat := 4

/-- Role identifier for `WHITELIST_MANAGER_ROLE`. -/
def WHITELIST_MANAGER_ROLE : Nat := 5

/-- Role identifier for `COMPLIANCE_OFFICER_ROLE`. -/
def COMPLIANCE_OFFICER_ROLE : Nat := 6

/-- `MAX_BATCH_SIZE` of `YRECTokenFlexible`. -/
def MAX_BATCH_SIZE : Nat := 500

/-- Storage of `YRECTokenFlexible` relevant to the ledger: ERC-20 balances
and total supply, the whitelist, the IP-value bookkeeping, the global
transfer switch, the pause flag, the access-control role table and the
timelock address. -/
structure TokenState where
  balances : Addr → Nat
  totalSupply : Nat
  whitelist : Addr → Bool
  totalIPValue : Nat
  ipValuePerHolder : Addr → Nat
  transfersEnabled : Bool
  paused : Bool
  roles : Nat → Addr → Bool
  timelock : Addr

/-- Events emitted by the token contract (the ones the claims are about). -/
inductive TokenEvent where
  | whitelistUpdated (account : Addr) (whitelisted : Bool)
  | ipValueUpdated (newTotalValue : Nat)
  | transfersToggled (enabled : Bool)
  | complianceViolation (src dst : Addr) (reason : String)
  | timelockUpdated (oldT newT : Addr)
  | transferEv (src dst : Addr) (value : Nat)
deriving DecidableEq

/-- Revert reasons of the token contract, covering its custom errors, the
OpenZeppelin errors reachable from the modeled entry points, and checked
arithmetic underflow. -/
inductive TokenErr where
  | accessControlUnauthorized (account : Addr) (role : Nat)
  | notWhitelisted (account : Addr)
  | transfersDisabled
  | invalidIPValue
  | backingMismatch (supply ipValue : Nat)
  | zeroAddress
  | batchSizeExceeded (provided maximum : Nat)
  | transferNotAllowed (src dst : Addr)
  | enforcedPause
  | insufficientBalance (sender balance needed : Nat)
  | invalidReceiver
  | invalidSender
  | arithmeticUnderflow
deriving DecidableEq

/-- `MathUpgradeable.mulDiv` with `Rounding.Down`: the full-precision
floor of `a * b / d`. -/
def mulDivDown (a b d : Nat) : Nat := a * b / d

/-- `MathUpgradeable.mulDiv` with `Rounding.Up`: the floor plus one
whenever the division leaves a remainder. -/
def mulDivUp (a b d : Nat) : Nat := a * b / d + (if a * b % d = 0 then 0 else 1)

/-- Ceiling division in the words of the spec: `ceil(x / d)` on naturals,
written with the usual `(x + d - 1) / d` formula. -/
def ceilDivSpec (x d : Nat) : Nat := (x + d - 1) / d

/-- Credit half of `ERC20Upgradeable._update`: add `value` to `dst`, or
remove it from the total supply when `dst` is the zero address (the
supply subtraction is in an `unchecked` block in OpenZeppelin, hence
plain truncated subtraction here). -/
def erc20Credit (s : TokenState) (dst : Addr) (value : Nat) : TokenState :=
  if dst = 0 then { s with totalSupply := s.totalSupply - value }
  else { s with balances := fun a => if a = dst then s.balances a + value else s.balances a }

/-- `super._update` as seen from `YRECTokenFlexible._update`: the pause
check of `ERC20PausableUpgradeable._update` followed by the
balance/supply bookkeeping of `ERC20Upgradeable._update`. -/
def erc20Update (s : TokenState) (src dst : Addr) (value : Nat) : Except TokenErr TokenState :=
  if s.paused = true then .error .enforcedPause
  else if src = 0 then .ok (erc20Credit { s with totalSupply := s.totalSupply + value } dst value)
  else if s.balances src < value then .error (.insufficientBalance src (s.balances src) value)
  else .ok (erc20Credit
    { s with balances := fun a => if a = src then s.balances src - value else s.balances a }
    dst value)

/-- The per-holder IP-value tracking block at the end of
`YRECTokenFlexible._update`.  It runs on the state after `super._update`,
so `balanceOf(from) + value` reconstructs the pre-transfer balance.  The
two `-=`/`+=` statements are Solidity 0.8 checked arithmetic. -/
def ipTrack (s : TokenState) (src dst : Addr) (value : Nat) : Except TokenErr TokenState :=
  if src ≠ 0 ∧ dst ≠ 0 ∧ 0 < value then
    let fromBalance := s.balances src + value
    let ipValueToTransfer :=
      if fromBalance = value then s.ipValuePerHolder src
      else mulDivDown (s.ipValuePerHolder src) value fromBalance
    if s.ipValuePerHolder src < ipValueToTransfer then .error .arithmeticUnderflow
    else
      let s1 := { s with ipValuePerHolder := fun a =>
        if a = src then s.ipValuePerHolder src - ipValueToTransfer else s.ipValuePerHolder a }
      .ok { s1 with ipValuePerHolder := fun a =>
        if a = dst then s1.ipValuePerHolder a + ipValueToTransfer else s1.ipValuePerHolder a }
  else .ok s

/-- `YRECTokenFlexible._update`: the compliance gate for regular transfers
(global switch, then whitelist on both endpoints, with the
`ComplianceViolation` event emitted right before the revert), then
`super._update`, then the IP-value tracking. -/
def yrecUpdate (s : TokenState) (src dst : Addr) (value : Nat) :
    Except (List TokenEvent × TokenErr) (TokenState × List TokenEvent) :=
  if (src ≠ 0 ∧ dst ≠ 0) ∧ s.transfersEnabled = false then
    .error ([], .transfersDisabled)
  else if (src ≠ 0 ∧ dst ≠ 0) ∧ (s.whitelist src = false ∨ s.whitelist dst = false) then
    .error ([.complianceViolation src dst "Address not whitelisted"], .transferNotAllowed src dst)
  else
    match erc20Update s src dst value with
    | .error e => .error ([], e)
    | .ok s1 =>
      match ipTrack s1 src dst value with
      | .error e => .error ([.transferEv src dst value], e)
      | .ok s2 => .ok (s2, [.transferEv src dst value])

/-- `YRECTokenFlexible.mint`: `onlyRole(MINTER_ROLE)`,
`onlyWhitelisted(to)`, the strict-backing argument checks, `_mint`
(whose OpenZeppelin implementation rejects the zero receiver and then
routes through `_update` with `from = 0`), the IP-value credits, and
finally the `validBacking` modifier re-validating
`totalSupply == _totalIPValue` after the body. -/
def mint (s : TokenState) (caller dst amount ipValue : Nat) :
    Except (List TokenEvent × TokenErr) (TokenState × List TokenEvent) :=
  if s.roles MINTER_ROLE caller = false then
    .error ([], .accessControlUnauthorized caller MINTER_ROLE)
  else if s.whitelist dst = false then .error ([], .notWhitelisted dst)
  else if ipValue = 0 then .error ([], .invalidIPValue)
  else if amount ≠ ipValue then .error ([], .backingMismatch amount ipValue)
  else if dst = 0 then .error ([], .invalidReceiver)
  else
    match yrecUpdate s 0 dst amount with
    | .error p => .error p
    | .ok (s1, ev1) =>
      let s2 := { s1 with
        totalIPValue := s1.totalIPValue + ipValue,
        ipValuePerHolder := fun a =>
          if a = dst then s1.ipValuePerHolder a + ipValue else s1.ipValuePerHolder a }
      if s2.totalSupply ≠ s2.totalIPValue then
        .error (ev1 ++ [.ipValueUpdated s2.totalIPValue], .backingMismatch s2.totalSupply s2.totalIPValue)
      else .ok (s2, ev1 ++ [.ipValueUpdated s2.totalIPValue])

/-- `YRECTokenFlexible.burn`: `onlyRole(BURNER_ROLE)`, the explicit
balance `require`, the prorated IP-value computation (exact on a full
burn, `mulDiv` rounding up otherwise), `_burn` (whose OpenZeppelin
implementation rejects the zero sender and then routes through
`_update` with `to = 0`), the checked IP-value debits, and the
`validBacking` post-check. -/
def burn (s : TokenState) (caller src amount : Nat) :
    Except (List TokenEvent × TokenErr) (TokenState × List TokenEvent) :=
  if s.roles BURNER_ROLE caller = false then
    .error ([], .accessControlUnauthorized caller BURNER_ROLE)
  else if s.balances src < amount then
    .error ([], .insufficientBalance src (s.balances src) amount)
  else
    let ipValueToReduce :=
      if s.balances src = amount then s.ipValuePerHolder src
      else mulDivUp (s.ipValuePerHolder src) amount (s.balances src)
    if src = 0 then .error ([], .invalidSender)
    else
    match yrecUpdate s src 0 amount with
    | .error p => .error p
    | .ok (s1, ev1) =>
      if s1.totalIPValue < ipValueToReduce then .error (ev1, .arithmeticUnderflow)
      else if s1.ipValuePerHolder src < ipValueToReduce then .error (ev1, .arithmeticUnderflow)
      else
        let s2 := { s1 with
          totalIPValue := s1.totalIPValue - ipValueToReduce,
          ipValuePerHolder := fun a =>
            if a = src then s1.ipValuePerHolder a - ipValueToReduce else s1.ipValuePerHolder a }
        if s2.totalSupply ≠ s2.totalIPValue then
          .error (ev1 ++ [.ipValueUpdated s2.totalIPValue], .backingMismatch s2.totalSupply s2.totalIPValue)
        else .ok (s2, ev1 ++ [.ipValueUpdated s2.totalIPValue])

/-- `YRECTokenFlexible.updateWhitelist`: role check, zero-address
rejection, single-entry update with its event. -/
def updateWhitelist (s : TokenState) (caller account : Addr) (whitelisted : Bool) :
    Except (List TokenEvent × TokenErr) (TokenState × List TokenEvent) :=
  if s.roles WHITELIST_MANAGER_ROLE caller = false then
    .error ([], .accessControlUnauthorized caller WHITELIST_MANAGER_ROLE)
  else if account = 0 then .error ([], .zeroAddress)
  else .ok ({ s with whitelist := fun a => if a = account then whitelisted else s.whitelist a },
            [.whitelistUpdated account whitelisted])

/-- The loop body of `YRECTokenFlexible.batchUpdateWhitelist`: each
nonzero entry is written and emits its event, a zero entry is skipped
silently. -/
def batchGo (whitelisted : Bool) : List Addr → TokenState → List TokenEvent →
    TokenState × List TokenEvent
  | [], s, ev => (s, ev)
  | account :: rest, s, ev =>
    if account ≠ 0 then
      batchGo whitelisted rest
        { s with whitelist := fun a => if a = account then whitelisted else s.whitelist a }
        (ev ++ [.whitelistUpdated account whitelisted])
    else batchGo whitelisted rest s ev

/-- `YRECTokenFlexible.batchUpdateWhitelist`: role check, batch-size cap,
then the skip-zero loop. -/
def batchUpdateWhitelist (s : TokenState) (caller : Addr) (accounts : List Addr)
    (whitelisted : Bool) :
    Except (List TokenEvent × TokenErr) (TokenState × List TokenEvent) :=
  if s.roles WHITELIST_MANAGER_ROLE caller = false then
    .error ([], .accessControlUnauthorized caller WHITELIST_MANAGER_ROLE)
  else if accounts.length > MAX_BATCH_SIZE then
    .error ([], .batchSizeExceeded accounts.length MAX_BATCH_SIZE)
  else .ok (batchGo whitelisted accounts s [])

/-- `YRECTokenFlexible.setTransfersEnabled`. -/
def setTransfersEnabled (s : TokenState) (caller : Addr) (enabled : Bool) :
    Except (List TokenEvent × TokenErr) (TokenState × List TokenEvent) :=
  if s.roles COMPLIANCE_OFFICER_ROLE caller = false then
    .error ([], .accessControlUnauthorized caller COMPLIANCE_OFFICER_ROLE)
  else .ok ({ s with transfersEnabled := enabled }, [.transfersToggled enabled])

/-- `YRECTokenFlexible.initialize`: zero-address checks, all roles granted
to the initial owner, the custodian and the owner whitelisted, transfers
disabled, nothing minted yet. -/
def initializeToken (initialOwner custodianWallet tlock : Addr) :
    Except (List TokenEvent × TokenErr) (TokenState × List TokenEvent) :=
  if initialOwner = 0 ∨ custodianWallet = 0 ∨ tlock = 0 then .error ([], .zeroAddress)
  else .ok
    ({ balances := fun _ => 0, totalSupply := 0,
       whitelist := fun a => decide (a = custodianWallet ∨ a = initialOwner),
       totalIPValue := 0, ipValuePerHolder := fun _ => 0,
       transfersEnabled := false, paused := false,
       roles := fun r a => decide ((r = DEFAULT_ADMIN_ROLE ∨ r = MINTER_ROLE ∨ r = BURNER_ROLE ∨
         r = PAUSER_ROLE ∨ r = UPGRADER_ROLE ∨ r = WHITELIST_MANAGER_ROLE ∨
         r = COMPLIANCE_OFFICER_ROLE) ∧ a = initialOwner),
       timelock := tlock },
     [.whitelistUpdated custodianWallet true, .whitelistUpdated initialOwner true,
      .timelockUpdated 0 tlock])

/-- Mint and burn requests, the operations quantified over by the global
backing-invariant claim. -/
inductive LedgerOp where
  | mintOp (caller dst amount ipValue : Nat)
  | burnOp (caller src amount : Nat)

/-- Transactional application of a ledger operation: a reverted call
leaves the state unchanged, a successful call commits the new state. -/
def applyLedgerOp (s : TokenState) : LedgerOp → TokenState
  | .mintOp c t a v =>
    match mint s c t a v with
    | .ok p => p.1
    | .error _ => s
  | .burnOp c t a =>
    match burn s c t a with
    | .ok p => p.1
    | .error _ => s

/-- Fallback token state used only to totalize extraction from `Except`
results that are in fact `ok`. -/
def tsDefault : TokenState :=
  { balances := fun _ => 0, totalSupply := 0, whitelist := fun _ => false,
    totalIPValue := 0, ipValuePerHolder := fun _ => 0, transfersEnabled := false,
    paused := false, roles := fun _ _ => false, timelock := 0 }

/-- The freshly initialized token ledger with owner `1`, custodian `2` and
timelock `3`. -/
def tInit0 : TokenState :=
  match initializeToken 1 2 3 with
  | .ok p => p.1
  | .error _ => tsDefault

/-- `tInit0` after `mint(2, 1000, 1000)` by the owner. -/
def tMint1 : TokenState :=
  match mint tInit0 1 2 1000 1000 with
  | .ok p => p.1
  | .error _ => tsDefault

/-- Events of the mint producing `tMint1`. -/
def tMint1Ev : List TokenEvent :=
  match mint tInit0 1 2 1000 1000 with
  | .ok p => p.2
  | .error _ => []

/-- `tMint1` with transfers enabled by the compliance officer. -/
def tXfer0 : TokenState :=
  match setTransfersEnabled tMint1 1 true with
  | .ok p => p.1
  | .error _ => tsDefault

/-- `tMint1` after a full burn of the 1000-token balance of holder `2`. -/
def tBurnFull : TokenState :=
  match burn tMint1 1 2 1000 with
  | .ok p => p.1
  | .error _ => tsDefault

/-- Events of the full-burn run producing `tBurnFull`. -/
def tBurnFullEv : List TokenEvent :=
  match burn tMint1 1 2 1000 with
  | .ok p => p.2
  | .error _ => []

/-- `tMint1` after a burn of 300 out of the 1000-token balance of holder
`2`. -/
def tBurnPart : TokenState :=
  match burn tMint1 1 2 300 with
  | .ok p => p.1
  | .error _ => tsDefault

/-- Events of the prorated burn producing `tBurnPart`. -/
def tBurnPartEv : List TokenEvent :=
  match burn tMint1 1 2 300 with
  | .ok p => p.2
  | .error _ => []

/-- `tXfer0` after transferring 250 tokens from holder `2` to holder `1`. -/
def tXfer1 : TokenState :=
  match yrecUpdate tXfer0 2 1 250 with
  | .ok p => p.1
  | .error _ => tsDefault

/-- Events of the transfer producing `tXfer1`. -/
def tXfer1Ev : List TokenEvent :=
  match yrecUpdate tXfer0 2 1 250 with
  | .ok p => p.2
  | .error _ => []

/-- State after the batch whitelist update `[4, 0, 5] ↦ true` on the
concrete initialized ledger (the zero entry is skipped). -/
def tBatch1 : TokenState :=
  match batchUpdateWhitelist tInit0 1 [4, 0, 5] true with
  | .ok p => p.1
  | .error _ => tsDefault

/-- Events of the batch whitelist update producing `tBatch1`. -/
def tBatch1Ev : List TokenEvent :=
  match batchUpdateWhitelist tInit0 1 [4, 0, 5] true with
  | .ok p => p.2
  | .error _ => []

/-- A sample sequence of mint and burn requests used to instantiate the
global backing invariant (the burn of 800 is more than the remaining
balance and reverts, exercising the failure-leaves-state-unchanged
case). -/
def opsC1 : List LedgerOp :=
  [.mintOp 1 2 1000 1000, .burnOp 1 2 300, .mintOp 1 1 5 5, .burnOp 1 2 800, .burnOp 1 2 700]

end YREC

namespace MS

/-- Addresses on the multisig side, again naturals with `address(0) = 0`. -/
abbrev Addr := Nat

/-- Transaction hashes: `keccak256(abi.encodePacked(to, value, data, nonce,
address(this)))`, modeled as the injective tuple of the hash preimage. -/
abbrev TxHash := Nat × Nat × List Nat × Nat × Addr

/-- Hash computation used by `submitTransaction` and
`generateTransactionHash`. -/
def txHashOf (dst value : Nat) (data : List Nat) (n : Nat) (self : Addr) : TxHash :=
  (dst, value, data, n, self)

/-- The `Transaction` struct of `SimpleMultisig`. -/
structure Transaction where
  dst : Addr
  value : Nat
  data : List Nat
  executed : Bool
  confirmationCount : Nat
  nonce : Nat
  txHash : TxHash
deriving DecidableEq, Inhabited

/-- Storage of `SimpleMultisig`: the owner array and mapping, the
threshold, the transaction store with its counter, per-transaction
per-owner confirmation flags, the global nonce, and the permanent replay
set of executed transaction hashes.  `self` is `address(this)`, fixed at
construction and used in hash computation. -/
structure State where
  self : Addr
  owners : List Addr
  threshold : Nat
  isOwner : Addr → Bool
  transactionCount : Nat
  transactions : Nat → Transaction
  confirmations : Nat → Addr → Bool
  nonce : Nat
  executedTransactionHashes : TxHash → Bool

/-- Revert reasons of the multisig: the `require` messages and the custom
errors, plus checked arithmetic underflow. -/
inductive MsErr where
  | notAnOwner
  | ownersRequired
  | invalidOwnerAddress
  | duplicateOwner
  | invalidThreshold
  | txDoesNotExist
  | alreadyExecuted
  | alreadyConfirmedByOwner
  | notConfirmedByOwner
  | insufficientConfirmations
  | executionFailed
  | invalidNonce (provided expected : Nat)
  | transactionAlreadyExecuted (h : TxHash)
  | arithmeticUnderflow
deriving DecidableEq

/-- The constructor loop over the owner array: rejects the zero address
and duplicates, accumulates the `isOwner` mapping and the `owners`
array. -/
def addOwners : List Addr → (Addr → Bool) → List Addr → Except MsErr ((Addr → Bool) × List Addr)
  | [], isO, acc => .ok (isO, acc)
  | o :: rest, isO, acc =>
    if o = 0 then .error .invalidOwnerAddress
    else if isO o = true then .error .duplicateOwner
    else addOwners rest (fun a => if a = o then true else isO a) (acc ++ [o])

/-- The `SimpleMultisig` constructor: requires a nonempty owner list, runs
the owner loop, validates the threshold after the owners are added, and
starts with no transactions, nonce `0` and an empty replay set. -/
def mkMultisig (self : Addr) (ownerArgs : List Addr) (thr : Nat) : Except MsErr State :=
  if ownerArgs.length = 0 then .error .ownersRequired
  else
    match addOwners ownerArgs (fun _ => false) [] with
    | .error e => .error e
    | .ok (isO, ows) =>
      if 0 < thr ∧ thr ≤ ows.length then
        .ok { self := self, owners := ows, threshold := thr, isOwner := isO,
              transactionCount := 0, transactions := fun _ => default,
              confirmations := fun _ _ => false, nonce := 0,
              executedTransactionHashes := fun _ => false }
      else .error .invalidThreshold

/-- The state as it stands at the moment `executeTransaction` performs the
external call: the transaction hash is already in the replay set and the
executed flag is already set. -/
def execMarked (s : State) (id : Nat) : State :=
  { s with
    executedTransactionHashes := fun h =>
      if h = (s.transactions id).txHash then true else s.executedTransactionHashes h,
    transactions := fun i =>
      if i = id then { s.transactions id with executed := true } else s.transactions i }

/-- `SimpleMultisig.executeTransaction`: existence and not-executed
modifiers, the threshold `require`, marking the hash and the executed
flag before performing the call, then the call itself (modeled as a
boolean-valued function of the state visible at call time); a failing
call reverts the whole operation. -/
def executeTransaction (call : State → Bool) (s : State) (id : Nat) : Except MsErr State :=
  if id < s.transactionCount then
    if (s.transactions id).executed = true then .error .alreadyExecuted
    else if (s.transactions id).confirmationCount < s.threshold then
      .error .insufficientConfirmations
    else if call (execMarked s id) = true then .ok (execMarked s id)
    else .error .executionFailed
  else .error .txDoesNotExist

/-- `SimpleMultisig.confirmTransaction`: owner, existence and not-executed
checks, the not-yet-confirmed `require`, recording the confirmation and
incrementing the count, then synchronous execution when the count
reaches the threshold (the code re-reads the stored count after the
increment, which is the old count plus one, written so here). -/
def confirmTransaction (call : State → Bool) (s : State) (sender : Addr) (id : Nat) :
    Except MsErr State :=
  if s.isOwner sender = false then .error .notAnOwner
  else if id < s.transactionCount then
    if (s.transactions id).executed = true then .error .alreadyExecuted
    else if s.confirmations id sender = true then .error .alreadyConfirmedByOwner
    else
      let s1 := { s with
        confirmations := fun i a =>
          if i = id ∧ a = sender then true else s.confirmations i a,
        transactions := fun i =>
          if i = id then
            { s.transactions id with confirmationCount := (s.transactions id).confirmationCount + 1 }
          else s.transactions i }
      if s.threshold ≤ (s.transactions id).confirmationCount + 1 then executeTransaction call s1 id
      else .ok s1
  else .error .txDoesNotExist

/-- `SimpleMultisig.revokeConfirmation`: owner, existence and not-executed
checks, the confirmed `require`, clearing the flag and decrementing the
count (checked arithmetic). -/
def revokeConfirmation (s : State) (sender : Addr) (id : Nat) : Except MsErr State :=
  if s.isOwner sender = false then .error .notAnOwner
  else if id < s.transactionCount then
    if (s.transactions id).executed = true then .error .alreadyExecuted
    else if s.confirmations id sender = false then .error .notConfirmedByOwner
    else if (s.transactions id).confirmationCount = 0 then .error .arithmeticUnderflow
    else .ok { s with
      confirmations := fun i a =>
        if i = id ∧ a = sender then false else s.confirmations i a,
      transactions := fun i =>
        if i = id then
          { s.transactions id with confirmationCount := (s.transactions id).confirmationCount - 1 }
        else s.transactions i }
  else .error .txDoesNotExist

/-- `SimpleMultisig.submitTransaction`: `onlyOwner`, `validNonce` (strict
equality against the engine counter), the replay-set check on the
transaction hash, creation of the record, nonce increment, and the
automatic confirmation by the submitter (which may in turn execute). -/
def submitTransaction (call : State → Bool) (s : State) (sender : Addr)
    (dst value : Nat) (data : List Nat) (n : Nat) : Except MsErr (Nat × State) :=
  if s.isOwner sender = false then .error .notAnOwner
  else if n ≠ s.nonce then .error (.invalidNonce n s.nonce)
  else
    let h := txHashOf dst value data n s.self
    if s.executedTransactionHashes h = true then .error (.transactionAlreadyExecuted h)
    else
      let id := s.transactionCount
      let s1 := { s with
        transactionCount := id + 1,
        transactions := fun i =>
          if i = id then
            { dst := dst, value := value, data := data, executed := false,
              confirmationCount := 0, nonce := n, txHash := h }
          else s.transactions i,
        nonce := s.nonce + 1 }
      match confirmTransaction call s1 sender id with
      | .ok s2 => .ok (id, s2)
      | .error e => .error e

/-- States reachable through the public interface of the multisig: a
freshly constructed wallet followed by any number of successful submit,
confirm and revoke calls (execution only happens inside confirmation, as
`executeTransaction` is internal).  Reverted calls leave the state
unchanged and need no rule. -/
inductive Reachable : State → Prop where
  | start : ∀ self ownerArgs thr s, mkMultisig self ownerArgs thr = .ok s → Reachable s
  | submitStep : ∀ s call sender dst value data n id s', Reachable s →
      submitTransaction call s sender dst value data n = .ok (id, s') → Reachable s'
  | confirmStep : ∀ s call sender id s', Reachable s →
      confirmTransaction call s sender id = .ok s' → Reachable s'
  | revokeStep : ∀ s sender id s', Reachable s →
      revokeConfirmation s sender id = .ok s' → Reachable s'

/-- The number of owners whose confirmation flag for transaction `id` is
set. -/
def ConfCount (s : State) (id : Nat) : Nat :=
  s.owners.countP (fun a => s.confirmations id a)

/-- Well-formedness invariant of a multisig state: the owner array has no
duplicates and agrees with the `isOwner` mapping, confirmation flags of
not-yet-created transactions are clear, and every existing transaction
stores a confirmation count equal to the number of owners that confirmed
it. -/
structure WF (s : State) : Prop where
  nodup : s.owners.Nodup
  ownerMem : ∀ a, s.isOwner a = true ↔ a ∈ s.owners
  fresh : ∀ id, s.transactionCount ≤ id → ∀ a, s.confirmations id a = false
  counts : ∀ id, id < s.transactionCount →
    (s.transactions id).confirmationCount = ConfCount s id

/-- Fallback multisig state used only to totalize extraction from `Except`
results that are in fact `ok`. -/
def msDefault : State :=
  { self := 0, owners := [], threshold := 0, isOwner := fun _ => false,
    transactionCount := 0, transactions := fun _ => default,
    confirmations := fun _ _ => false, nonce := 0,
    executedTransactionHashes := fun _ => false }

/-- An external call that always succeeds. -/
def callT : State → Bool := fun _ => true

/-- An external call that always fails. -/
def callF : State → Bool := fun _ => false

/-- A freshly constructed 2-of-3 multisig at address `9` with owners `1`,
`2` and `3`. -/
def msInit0 : State :=
  match mkMultisig 9 [1, 2, 3] 2 with
  | .ok s => s
  | .error _ => msDefault

/-- `msInit0` after owner `1` submitted a transaction to target `7` with
nonce `0` (auto-confirmed once, below the threshold of 2). -/
def msState1 : State :=
  match submitTransaction callT msInit0 1 7 0 [] 0 with
  | .ok p => p.2
  | .error _ => msDefault

/-- `msState1` after owner `2` also confirmed transaction `0`, reaching
the threshold and executing it. -/
def msState2 : State :=
  match confirmTransaction callT msState1 2 0 with
  | .ok s => s
  | .error _ => msDefault

/-- A 3-of-3 wallet used to exhibit a below-threshold confirmation. -/
def msB0 : State :=
  match mkMultisig 9 [1, 2, 3] 3 with
  | .ok s => s
  | .error _ => msDefault

/-- `msB0` after owner 1 submitted a transaction (count 1 of 3). -/
def msB1 : State :=
  match submitTransaction callT msB0 1 7 0 [] 0 with
  | .ok p => p.2
  | .error _ => msDefault

/-- `msB1` after owner 2 confirmed (count 2 of 3, still below threshold). -/
def msB2 : State :=
  match confirmTransaction callT msB1 2 0 with
  | .ok s => s
  | .error _ => msDefault


end MS

namespace YREC

theorem mint_ok_backing {s : TokenState} {c d a v : Nat} {s' : TokenState}
    {ev : List TokenEvent} (h : mint s c d a v = .ok (s', ev)) :
    s'.totalSupply = s'.totalIPValue := by
  unfold mint at h
  simp only [] at h
  repeat' split at h
  any_goals exact Except.noConfusion h
  all_goals
    injection h with hp
    rw [Prod.mk.injEq] at hp
    obtain ⟨h1, h2⟩ := hp
    subst h1
    exact not_not.mp (by assumption)

theorem burn_ok_backing {s : TokenState} {c f a : Nat} {s' : TokenState}
    {ev : List TokenEvent} (h : burn s c f a = .ok (s', ev)) :
    s'.totalSupply = s'.totalIPValue := by
  unfold burn at h
  simp only [] at h
  repeat' split at h
  any_goals exact Except.noConfusion h
  all_goals
    injection h with hp
    rw [Prod.mk.injEq] at hp
    obtain ⟨h1, h2⟩ := hp
    subst h1
    exact not_not.mp (by assumption)

theorem initializeToken_ok {o c t : Addr} {s0 : TokenState} {ev0 : List TokenEvent}
    (h : initializeToken o c t = .ok (s0, ev0)) :
    s0.totalSupply = 0 ∧ s0.totalIPValue = 0 := by
  unfold initializeToken at h
  split at h
  · exact Except.noConfusion h
  · injection h with hp
    rw [Prod.mk.injEq] at hp
    obtain ⟨h1, h2⟩ := hp
    subst h1
    exact ⟨rfl, rfl⟩

theorem applyLedgerOp_preserves (s : TokenState) (op : LedgerOp)
    (hs : s.totalSupply = s.totalIPValue) :
    (applyLedgerOp s op).totalSupply = (applyLedgerOp s op).totalIPValue := by
  cases op with
  | mintOp c d a v =>
    simp only [applyLedgerOp]
    cases hm : mint s c d a v with
    | ok p => exact mint_ok_backing hm
    | error e => exact hs
  | burnOp c f a =>
    simp only [applyLedgerOp]
    cases hm : burn s c f a with
    | ok p => exact burn_ok_backing hm
    | error e => exact hs

theorem foldl_backing (ops : List LedgerOp) :
    ∀ s : TokenState, s.totalSupply = s.totalIPValue →
      (ops.foldl applyLedgerOp s).totalSupply = (ops.foldl applyLedgerOp s).totalIPValue := by
  induction ops with
  | nil => intro s hs; simpa using hs
  | cons op rest ih =>
    intro s hs
    simpa using ih (applyLedgerOp s op) (applyLedgerOp_preserves s op hs)

theorem mulDivUp_eq_ceilDivSpec (a b d : Nat) (hd : 0 < d) :
    mulDivUp a b d = ceilDivSpec (a * b) d := by
  unfold mulDivUp ceilDivSpec
  by_cases h0 : a * b % d = 0
  · rw [if_pos h0]
    have hdm := Nat.div_add_mod (a * b) d
    have hd1 : a * b + d - 1 = d * (a * b / d) + (d - 1) := by omega
    rw [hd1, Nat.mul_add_div hd, Nat.div_eq_of_lt (show d - 1 < d by omega)]
  · rw [if_neg h0]
    have hdm := Nat.div_add_mod (a * b) d
    have hmod : a * b % d < d := Nat.mod_lt _ hd
    have h3 : d * (a * b / d + 1) = d * (a * b / d) + d := by ring
    have hd1 : a * b + d - 1 = d * (a * b / d + 1) + (a * b % d - 1) := by omega
    rw [hd1, Nat.mul_add_div hd, Nat.div_eq_of_lt (show a * b % d - 1 < d by omega)]

theorem erc20Update_ip_const {s : TokenState} {src dst value : Nat} {s1 : TokenState}
    (h : erc20Update s src dst value = .ok s1) :
    s1.ipValuePerHolder = s.ipValuePerHolder ∧ s1.totalIPValue = s.totalIPValue := by
  unfold erc20Update erc20Credit at h
  repeat' split at h
  any_goals exact Except.noConfusion h
  all_goals
    injection h with h1
    subst h1
    exact ⟨rfl, rfl⟩

theorem ipTrack_dst0 (s : TokenState) (src value : Nat) :
    ipTrack s src 0 value = .ok s := by
  unfold ipTrack
  rw [if_neg]
  simp

theorem ipTrack_src0 (s : TokenState) (dst value : Nat) :
    ipTrack s 0 dst value = .ok s := by
  unfold ipTrack
  rw [if_neg]
  simp

theorem yrecUpdate_burn_path {s : TokenState} {f a : Nat} {s1 : TokenState}
    {ev1 : List TokenEvent} (h : yrecUpdate s f 0 a = .ok (s1, ev1)) :
    s1.ipValuePerHolder = s.ipValuePerHolder ∧ s1.totalIPValue = s.totalIPValue := by
  unfold yrecUpdate at h
  rw [if_neg (by simp), if_neg (by simp)] at h
  cases he : erc20Update s f 0 a with
  | error e => rw [he] at h; exact Except.noConfusion h
  | ok s2 =>
    rw [he] at h
    simp only [] at h
    rw [ipTrack_dst0] at h
    injection h with hp
    rw [Prod.mk.injEq] at hp
    obtain ⟨h1, h2⟩ := hp
    subst h1
    exact erc20Update_ip_const he

theorem erc20Update_src0 {s : TokenState} {d a : Nat} (hp : s.paused = false) (hd : d ≠ 0) :
    erc20Update s 0 d a = .ok { s with
                                totalSupply := s.totalSupply + a,
                                balances := fun x =>
                                  if x = d then s.balances x + a else s.balances x } := by
  unfold erc20Update erc20Credit
  rw [if_neg (by simp [hp]), if_pos rfl, if_neg hd]

theorem yrecUpdate_mint_path {s : TokenState} {d a : Nat} {s1 : TokenState}
    {ev1 : List TokenEvent} (hd : d ≠ 0) (h : yrecUpdate s 0 d a = .ok (s1, ev1)) :
    s1.balances d = s.balances d + a ∧ s1.totalSupply = s.totalSupply + a ∧
    s1.ipValuePerHolder = s.ipValuePerHolder ∧ s1.totalIPValue = s.totalIPValue := by
  unfold yrecUpdate at h
  rw [if_neg (by simp), if_neg (by simp)] at h
  cases hpaused : s.paused with
  | true =>
    rw [show erc20Update s 0 d a = .error .enforcedPause from by
      unfold erc20Update; rw [if_pos hpaused]] at h
    exact Except.noConfusion h
  | false =>
    rw [erc20Update_src0 hpaused hd] at h
    simp only [] at h
    rw [ipTrack_src0] at h
    injection h with hp
    rw [Prod.mk.injEq] at hp
    obtain ⟨h1, h2⟩ := hp
    subst h1
    refine ⟨?_, rfl, rfl, rfl⟩
    simp

theorem mint_ok_spec {s : TokenState} {c d a v : Nat} {s' : TokenState}
    {ev : List TokenEvent} (h : mint s c d a v = .ok (s', ev)) :
    s'.balances d = s.balances d + a ∧ s'.totalSupply = s.totalSupply + a ∧
    s'.ipValuePerHolder d = s.ipValuePerHolder d + v ∧
    s'.totalIPValue = s.totalIPValue + v := by
  unfold mint at h
  simp only [] at h
  split at h
  · exact Except.noConfusion h
  split at h
  · exact Except.noConfusion h
  split at h
  · exact Except.noConfusion h
  split at h
  · exact Except.noConfusion h
  split at h
  · exact Except.noConfusion h
  next hdz =>
  cases hyu : yrecUpdate s 0 d a with
  | error p => rw [hyu] at h; exact Except.noConfusion h
  | ok p =>
    obtain ⟨hb, hts, hip, htot⟩ :=
      yrecUpdate_mint_path hdz (show yrecUpdate s 0 d a = .ok (p.1, p.2) from hyu)
    rw [hyu] at h
    simp only [] at h
    split at h
    · exact Except.noConfusion h
    injection h with hp
    rw [Prod.mk.injEq] at hp
    obtain ⟨h1, h2⟩ := hp
    subst h1
    exact ⟨hb, hts, by simp [hip], by simp [htot]⟩

theorem burn_ok_spec {s : TokenState} {c f a : Nat} {s' : TokenState}
    {ev : List TokenEvent} (h : burn s c f a = .ok (s', ev)) :
    a ≤ s.balances f ∧
    (s.balances f = a →
      s'.ipValuePerHolder f = 0 ∧
      s.ipValuePerHolder f ≤ s.totalIPValue ∧
      s'.totalIPValue = s.totalIPValue - s.ipValuePerHolder f) ∧
    (s.balances f ≠ a →
      mulDivUp (s.ipValuePerHolder f) a (s.balances f) ≤ s.ipValuePerHolder f ∧
      mulDivUp (s.ipValuePerHolder f) a (s.balances f) ≤ s.totalIPValue ∧
      s'.ipValuePerHolder f
        = s.ipValuePerHolder f - mulDivUp (s.ipValuePerHolder f) a (s.balances f) ∧
      s'.totalIPValue
        = s.totalIPValue - mulDivUp (s.ipValuePerHolder f) a (s.balances f)) := by
  unfold burn at h
  simp only [] at h
  split at h
  · exact Except.noConfusion h
  next hrole =>
  split at h
  · exact Except.noConfusion h
  next hbal =>
  by_cases hfull : s.balances f = a
  · rw [if_pos hfull] at h
    split at h
    · exact Except.noConfusion h
    next hsrc =>
    cases hyu : yrecUpdate s f 0 a with
    | error p => rw [hyu] at h; exact Except.noConfusion h
    | ok p =>
      obtain ⟨hip, htot⟩ :=
        yrecUpdate_burn_path (show yrecUpdate s f 0 a = .ok (p.1, p.2) from hyu)
      rw [hyu] at h
      simp only [] at h
      split at h
      · exact Except.noConfusion h
      next hg1 =>
      split at h
      · exact Except.noConfusion h
      next hg2 =>
      split at h
      · exact Except.noConfusion h
      injection h with hp
      rw [Prod.mk.injEq] at hp
      obtain ⟨h1, h2⟩ := hp
      subst h1
      rw [hip] at hg2
      rw [htot] at hg1
      refine ⟨by omega, fun _ => ⟨by simp [hip], by omega, by simp [htot]⟩,
        fun hne => absurd hfull hne⟩
  · rw [if_neg hfull] at h
    split at h
    · exact Except.noConfusion h
    next hsrc =>
    cases hyu : yrecUpdate s f 0 a with
    | error p => rw [hyu] at h; exact Except.noConfusion h
    | ok p =>
      obtain ⟨hip, htot⟩ :=
        yrecUpdate_burn_path (show yrecUpdate s f 0 a = .ok (p.1, p.2) from hyu)
      rw [hyu] at h
      simp only [] at h
      split at h
      · exact Except.noConfusion h
      next hg1 =>
      split at h
      · exact Except.noConfusion h
      next hg2 =>
      split at h
      · exact Except.noConfusion h
      injection h with hp
      rw [Prod.mk.injEq] at hp
      obtain ⟨h1, h2⟩ := hp
      subst h1
      rw [hip] at hg2
      rw [htot] at hg1
      refine ⟨by omega, fun hfe => absurd hfe hfull,
        fun _ => ⟨by omega, by omega, by simp [hip], by simp [htot]⟩⟩

/-- Claim C1: in the strict 1:1 variant, starting from a freshly
initialized ledger, `totalSupply == totalBackingValue` holds after every
operation of any mint/burn sequence (a reverted operation leaves the
state unchanged), and each of mint and burn re-validates the equality
before returning: every state they return satisfies it, because the
`validBacking` modifier turns a failing final check into a revert. -/
theorem mint_burn_strict_backing_invariant :
    (∀ (o c t : Addr) (s0 : TokenState) (ev0 : List TokenEvent),
       initializeToken o c t = .ok (s0, ev0) →
       ∀ ops : List LedgerOp,
         (ops.foldl applyLedgerOp s0).totalSupply
           = (ops.foldl applyLedgerOp s0).totalIPValue)
    ∧ (∀ (s : TokenState) (c d a v : Nat) (s' : TokenState) (ev : List TokenEvent),
        mint s c d a v = .ok (s', ev) → s'.totalSupply = s'.totalIPValue)
    ∧ (∀ (s : TokenState) (c f a : Nat) (s' : TokenState) (ev : List TokenEvent),
        burn s c f a = .ok (s', ev) → s'.totalSupply = s'.totalIPValue) := by
  refine ⟨?_, ?_, ?_⟩
  · intro o c t s0 ev0 h0 ops
    obtain ⟨h1, h2⟩ := initializeToken_ok h0
    exact foldl_backing ops s0 (by omega)
  · intro s c d a v s' ev h
    exact mint_ok_backing h
  · intro s c f a s' ev h
    exact burn_ok_backing h

/-- Witness for C1: the invariant evaluated after a concrete five-step
mint/burn sequence from the concrete initialized ledger. -/
theorem mint_burn_strict_backing_invariant_witness :
    (opsC1.foldl applyLedgerOp tInit0).totalSupply
      = (opsC1.foldl applyLedgerOp tInit0).totalIPValue :=
  mint_burn_strict_backing_invariant.1 1 2 3 tInit0
    [.whitelistUpdated 2 true, .whitelistUpdated 1 true, .timelockUpdated 0 3] rfl opsC1

/-- Claim C2: a successful burn of the full balance removes exactly the
recorded backing value of the account, leaving its `backingValue` at `0`
with no dust, while a successful burn of a strictly smaller nonzero
amount removes `ceil(backingValue * amount / balance)`, the proportional
share rounded up. -/
theorem burn_prorated_backing_removal :
    ∀ (s : TokenState) (c f a : Nat) (s' : TokenState) (ev : List TokenEvent),
      burn s c f a = .ok (s', ev) →
      (a = s.balances f →
        s'.ipValuePerHolder f = 0 ∧
        s.totalIPValue - s'.totalIPValue = s.ipValuePerHolder f) ∧
      (0 < a → a < s.balances f →
        s.ipValuePerHolder f - s'.ipValuePerHolder f
          = ceilDivSpec (s.ipValuePerHolder f * a) (s.balances f)) := by
  intro s c f a s' ev h
  obtain ⟨hle, hfull, hpart⟩ := burn_ok_spec h
  constructor
  · intro hae
    obtain ⟨h1, h2, h3⟩ := hfull hae.symm
    exact ⟨h1, by omega⟩
  · intro ha0 halt
    have hne : s.balances f ≠ a := by omega
    obtain ⟨h1, h2, h3, h4⟩ := hpart hne
    have hbpos : 0 < s.balances f := by omega
    rw [h3, ← mulDivUp_eq_ceilDivSpec _ _ _ hbpos]
    omega

/-- Witness for C2: a full burn of 1000 and a prorated burn of 300 out of
1000, both from the concrete post-mint ledger. -/
theorem burn_prorated_backing_removal_witness :
    (tBurnFull.ipValuePerHolder 2 = 0 ∧
      tMint1.totalIPValue - tBurnFull.totalIPValue = tMint1.ipValuePerHolder 2)
    ∧ tMint1.ipValuePerHolder 2 - tBurnPart.ipValuePerHolder 2
        = ceilDivSpec (tMint1.ipValuePerHolder 2 * 300) (tMint1.balances 2) :=
  ⟨(burn_prorated_backing_removal tMint1 1 2 1000 tBurnFull tBurnFullEv rfl).1 (by decide),
   (burn_prorated_backing_removal tMint1 1 2 300 tBurnPart tBurnPartEv rfl).2
     (by decide) (by decide)⟩

/-- Claim C8: with the minter role held and the target whitelisted,
`mint` fails with `InvalidIPValue` when the backing delta is zero and
with `BackingMismatch` when the amount differs from the backing delta;
a successful mint credits the target balance, the target backing, the
total supply and the total backing by the respective amounts, and in
particular `mint(2, 1000, 1000)` on the freshly initialized ledger
succeeds with `totalSupply = totalBackingValue = 1000`. -/
theorem mint_strict_errors_and_credit :
    (∀ (s : TokenState) (c d a : Nat),
       s.roles MINTER_ROLE c = true → s.whitelist d = true →
       mint s c d a 0 = .error ([], .invalidIPValue))
    ∧ (∀ (s : TokenState) (c d a v : Nat),
       s.roles MINTER_ROLE c = true → s.whitelist d = true → v ≠ 0 → a ≠ v →
       mint s c d a v = .error ([], .backingMismatch a v))
    ∧ (∀ (s : TokenState) (c d a v : Nat) (s' : TokenState) (ev : List TokenEvent),
       mint s c d a v = .ok (s', ev) →
       s'.balances d = s.balances d + a ∧ s'.totalSupply = s.totalSupply + a ∧
       s'.ipValuePerHolder d = s.ipValuePerHolder d + v ∧
       s'.totalIPValue = s.totalIPValue + v)
    ∧ (isOkB (mint tInit0 1 2 1000 1000) = true ∧
       tMint1.totalSupply = 1000 ∧ tMint1.totalIPValue = 1000) := by
  refine ⟨?_, ?_, ?_, ?_⟩
  · intro s c d a hrole hwl
    unfold mint
    rw [if_neg (by simp [hrole]), if_neg (by simp [hwl]), if_pos rfl]
  · intro s c d a v hrole hwl hv ha
    unfold mint
    rw [if_neg (by simp [hrole]), if_neg (by simp [hwl]), if_neg hv, if_pos ha]
  · intro s c d a v s' ev h
    exact mint_ok_spec h
  · exact ⟨by decide, by decide, by decide⟩

/-- Witness for C8: the two error cases and the credit effect evaluated
at concrete inputs on the concrete initialized ledger. -/
theorem mint_strict_errors_and_credit_witness :
    mint tInit0 1 2 500 0 = .error ([], .invalidIPValue)
    ∧ mint tInit0 1 2 999 1000 = .error ([], .backingMismatch 999 1000)
    ∧ (tMint1.balances 2 = tInit0.balances 2 + 1000
       ∧ tMint1.totalSupply = tInit0.totalSupply + 1000
       ∧ tMint1.ipValuePerHolder 2 = tInit0.ipValuePerHolder 2 + 1000
       ∧ tMint1.totalIPValue = tInit0.totalIPValue + 1000) :=
  ⟨mint_strict_errors_and_credit.1 tInit0 1 2 500 (by decide) (by decide),
   mint_strict_errors_and_credit.2.1 tInit0 1 2 999 1000 (by decide) (by decide)
     (by decide) (by decide),
   mint_strict_errors_and_credit.2.2.1 tInit0 1 2 1000 1000 tMint1 tMint1Ev rfl⟩

end YREC

namespace YREC

theorem erc20Update_xfer {s : TokenState} {f t v : Nat} {s1 : TokenState}
    (hf : f ≠ 0) (ht : t ≠ 0) (hft : f ≠ t)
    (h : erc20Update s f t v = .ok s1) :
    v ≤ s.balances f ∧ s1.balances f = s.balances f - v ∧
    s1.balances t = s.balances t + v ∧
    s1.ipValuePerHolder = s.ipValuePerHolder := by
  unfold erc20Update at h
  split at h
  · exact Except.noConfusion h
  split at h
  · exact Except.noConfusion h
  unfold erc20Credit at h
  rw [if_neg ht] at h
  injection h with h1
  subst h1
  exact ⟨by omega, by simp [hft, Ne.symm hft], by simp [Ne.symm hft], rfl⟩

theorem ipTrack_xfer {s : TokenState} {f t v : Nat}
    (hf : f ≠ 0) (ht : t ≠ 0) (hft : f ≠ t) (hv : 0 < v) {s2 : TokenState}
    (h : ipTrack s f t v = .ok s2) :
    ∃ x, x = (if s.balances f + v = v then s.ipValuePerHolder f
              else mulDivDown (s.ipValuePerHolder f) v (s.balances f + v)) ∧
      x ≤ s.ipValuePerHolder f ∧
      s2.ipValuePerHolder f = s.ipValuePerHolder f - x ∧
      s2.ipValuePerHolder t = s.ipValuePerHolder t + x := by
  unfold ipTrack at h
  rw [if_pos ⟨hf, ht, hv⟩] at h
  simp only [] at h
  by_cases hfull : s.balances f + v = v
  · rw [if_pos hfull] at h
    split at h
    · exact Except.noConfusion h
    next hg =>
      injection h with h1
      subst h1
      refine ⟨s.ipValuePerHolder f, by rw [if_pos hfull], le_refl _, ?_, ?_⟩
      · simp [hft, Ne.symm hft]
      · simp [Ne.symm hft]
  · rw [if_neg hfull] at h
    split at h
    · exact Except.noConfusion h
    next hg =>
      injection h with h1
      subst h1
      refine ⟨mulDivDown (s.ipValuePerHolder f) v (s.balances f + v),
        by rw [if_neg hfull], by omega, ?_, ?_⟩
      · simp [hft, Ne.symm hft]
      · simp [Ne.symm hft]

/-- Claim C3: a successful transfer of a nonzero amount `v` between two
distinct nonzero accounts moves the floor-rounded proportional backing
share (or the exact recorded backing on a full-balance transfer), and
backing is conserved between the two parties within one unit. -/
theorem transfer_floor_backing_conservation :
    ∀ (s : TokenState) (f t v : Nat) (s' : TokenState) (ev : List TokenEvent),
      f ≠ 0 → t ≠ 0 → f ≠ t → 0 < v →
      yrecUpdate s f t v = .ok (s', ev) →
      (s.ipValuePerHolder f - s'.ipValuePerHolder f
        = (if v = s.balances f then s.ipValuePerHolder f
           else s.ipValuePerHolder f * v / s.balances f)) ∧
      ((s.ipValuePerHolder f : ℤ)
        - ((s'.ipValuePerHolder f : ℤ) + (s'.ipValuePerHolder t : ℤ)
            - (s.ipValuePerHolder t : ℤ))).natAbs ≤ 1 := by
  intro s f t v s' ev hf ht hft hv h
  unfold yrecUpdate at h
  split at h
  · exact Except.noConfusion h
  split at h
  · exact Except.noConfusion h
  cases heu : erc20Update s f t v with
  | error e => rw [heu] at h; exact Except.noConfusion h
  | ok s1 =>
    rw [heu] at h
    simp only [] at h
    obtain ⟨hvle, hbf, hbt, hipeq⟩ := erc20Update_xfer hf ht hft heu
    cases hit : ipTrack s1 f t v with
    | error e => rw [hit] at h; exact Except.noConfusion h
    | ok s2 =>
      rw [hit] at h
      injection h with hp
      rw [Prod.mk.injEq] at hp
      obtain ⟨h1, h2⟩ := hp
      subst h1
      obtain ⟨x, hxdef, hxle, hf2, ht2⟩ := ipTrack_xfer hf ht hft hv hit
      rw [hipeq] at hxdef hxle hf2 ht2
      rw [hbf] at hxdef
      have hsum : s.balances f - v + v = s.balances f := by omega
      rw [hsum] at hxdef
      constructor
      · rw [hf2]
        by_cases hfull : s.balances f = v
        · rw [if_pos hfull] at hxdef
          rw [if_pos hfull.symm]
          omega
        · rw [if_neg hfull] at hxdef
          rw [if_neg (fun hh => hfull hh.symm)]
          have hxv : x = s.ipValuePerHolder f * v / s.balances f := hxdef
          omega
      · rw [hf2, ht2]
        push_cast
        omega

/-- Witness for C3: a transfer of 250 from holder 2 (balance 1000, backing
1000) to holder 1 on the concrete transfers-enabled ledger. -/
theorem transfer_floor_backing_conservation_witness :
    (tXfer0.ipValuePerHolder 2 - tXfer1.ipValuePerHolder 2
      = (if 250 = tXfer0.balances 2 then tXfer0.ipValuePerHolder 2
         else tXfer0.ipValuePerHolder 2 * 250 / tXfer0.balances 2)) ∧
    ((tXfer0.ipValuePerHolder 2 : ℤ)
      - ((tXfer1.ipValuePerHolder 2 : ℤ) + (tXfer1.ipValuePerHolder 1 : ℤ)
          - (tXfer0.ipValuePerHolder 1 : ℤ))).natAbs ≤ 1 :=
  transfer_floor_backing_conservation tXfer0 2 1 250 tXfer1 tXfer1Ev
    (by decide) (by decide) (by decide) (by decide) rfl

end YREC

namespace YREC

theorem batchGo_whitelist (flag : Bool) :
    ∀ (accounts : List Addr) (s : TokenState) (ev : List TokenEvent) (x : Addr),
      (batchGo flag accounts s ev).1.whitelist x
        = if x ≠ 0 ∧ x ∈ accounts then flag else s.whitelist x := by
  intro accounts
  induction accounts with
  | nil => intro s ev x; simp [batchGo]
  | cons b rest ih =>
    intro s ev x
    by_cases hb : b ≠ 0
    · simp only [batchGo]
      rw [if_pos hb, ih]
      simp only [List.mem_cons]
      by_cases hx0 : x = 0
      · subst hx0
        simp [Ne.symm hb]
      · by_cases hxb : x = b
        · subst hxb
          by_cases hxr : x ∈ rest
          · simp [hx0, hxr]
          · simp [hx0, hxr]
        · by_cases hxr : x ∈ rest
          · simp [hx0, hxb, hxr]
          · simp [hx0, hxb, hxr]
    · have hb0 : b = 0 := not_not.mp hb
      subst hb0
      simp only [batchGo]
      rw [if_neg hb, ih]
      simp only [List.mem_cons]
      by_cases hx0 : x = 0
      · simp [hx0]
      · simp [hx0]

theorem batchGo_events (flag : Bool) :
    ∀ (accounts : List Addr) (s : TokenState) (ev : List TokenEvent),
      (batchGo flag accounts s ev).2
        = ev ++ (accounts.filter (fun a => decide (a ≠ 0))).map
            (fun a => TokenEvent.whitelistUpdated a flag) := by
  intro accounts
  induction accounts with
  | nil => intro s ev; simp [batchGo]
  | cons b rest ih =>
    intro s ev
    by_cases hb : b ≠ 0
    · simp only [batchGo]
      rw [if_pos hb, ih]
      simp [List.filter_cons, hb]
    · have hb0 : b = 0 := not_not.mp hb
      subst hb0
      simp only [batchGo]
      rw [if_neg hb, ih]
      simp [List.filter_cons]

end YREC

namespace YREC

/-- Claim C7: with transfers globally enabled, a nonzero-endpoint transfer
with either endpoint missing from the whitelist reverts with the
compliance error `TransferNotAllowed`, and the reverting path emits the
structured `ComplianceViolation` record before the revert (the events of
the reverting execution are the first component of the error payload);
moreover, for any nonzero amount, a transfer to a non-whitelisted
address never succeeds, whatever the other flags are. -/
theorem transfer_compliance_gate :
    (∀ (s : TokenState) (f t v : Nat),
       f ≠ 0 → t ≠ 0 → s.transfersEnabled = true →
       (s.whitelist f = false ∨ s.whitelist t = false) →
       yrecUpdate s f t v
         = .error ([.complianceViolation f t "Address not whitelisted"],
                   .transferNotAllowed f t))
    ∧ (∀ (s : TokenState) (f t v : Nat),
       f ≠ 0 → t ≠ 0 → v ≠ 0 → s.whitelist t = false →
       isOkB (yrecUpdate s f t v) = false) := by
  constructor
  · intro s f t v hf ht he hwl
    unfold yrecUpdate
    rw [if_neg (by simp [he]), if_pos ⟨⟨hf, ht⟩, hwl⟩]
  · intro s f t v hf ht hv hwt
    cases hte : s.transfersEnabled with
    | false =>
      unfold yrecUpdate
      rw [if_pos ⟨⟨hf, ht⟩, hte⟩]
      rfl
    | true =>
      unfold yrecUpdate
      rw [if_neg (by simp [hte]), if_pos ⟨⟨hf, ht⟩, Or.inr hwt⟩]
      rfl

/-- Witness for C7: a transfer from whitelisted holder 2 to the
non-whitelisted address 5 on the transfers-enabled concrete ledger. -/
theorem transfer_compliance_gate_witness :
    yrecUpdate tXfer0 2 5 7
      = .error ([.complianceViolation 2 5 "Address not whitelisted"],
                .transferNotAllowed 2 5)
    ∧ isOkB (yrecUpdate tXfer0 2 5 7) = false :=
  ⟨transfer_compliance_gate.1 tXfer0 2 5 7 (by decide) (by decide) (by decide)
     (Or.inr (by decide)),
   transfer_compliance_gate.2 tXfer0 2 5 7 (by decide) (by decide) (by decide) (by decide)⟩

/-- Claim C10: the single-address whitelist update rejects the zero
address with a zero-address error, while the batch update silently skips
any zero entry: with the manager role and a batch within the cap, the
batch call succeeds, leaves the whitelist unchanged at the zero address
and at all addresses outside the batch, applies the flag to every
nonzero entry, and emits exactly one event per nonzero entry (none for
the zero entries). -/
theorem whitelist_zero_skip :
    (∀ (s : TokenState) (c : Addr) (flag : Bool),
       s.roles WHITELIST_MANAGER_ROLE c = true →
       updateWhitelist s c 0 flag = .error ([], .zeroAddress))
    ∧ (∀ (s : TokenState) (c : Addr) (accounts : List Addr) (flag : Bool),
       s.roles WHITELIST_MANAGER_ROLE c = true →
       accounts.length ≤ MAX_BATCH_SIZE →
       ∃ (s' : TokenState) (ev : List TokenEvent),
         batchUpdateWhitelist s c accounts flag = .ok (s', ev)
         ∧ s'.whitelist 0 = s.whitelist 0
         ∧ (∀ a, a ∈ accounts → a ≠ 0 → s'.whitelist a = flag)
         ∧ (∀ a, a ∉ accounts → s'.whitelist a = s.whitelist a)
         ∧ ev = (accounts.filter (fun a => decide (a ≠ 0))).map
             (fun a => TokenEvent.whitelistUpdated a flag)) := by
  constructor
  · intro s c flag hrole
    unfold updateWhitelist
    rw [if_neg (by simp [hrole]), if_pos rfl]
  · intro s c accounts flag hrole hlen
    refine ⟨(batchGo flag accounts s []).1, (batchGo flag accounts s []).2,
      ?_, ?_, ?_, ?_, ?_⟩
    · unfold batchUpdateWhitelist
      rw [if_neg (by simp [hrole]), if_neg (Nat.not_lt.mpr hlen)]
    · rw [batchGo_whitelist]
      simp
    · intro a ha h0
      rw [batchGo_whitelist, if_pos ⟨h0, ha⟩]
    · intro a ha
      rw [batchGo_whitelist, if_neg (by simp [ha])]
    · simpa using batchGo_events flag accounts s []

/-- Witness for C10: the zero-address rejection of the single update and
the batch `[4, 0, 5]` on the concrete initialized ledger, which succeeds,
skips the zero entry with no state change and no event for it, and
updates the two nonzero entries. -/
theorem whitelist_zero_skip_witness :
    updateWhitelist tInit0 1 0 true = .error ([], .zeroAddress)
    ∧ tBatch1.whitelist 0 = tInit0.whitelist 0
    ∧ tBatch1.whitelist 4 = true
    ∧ tBatch1.whitelist 5 = true
    ∧ tBatch1.whitelist 6 = tInit0.whitelist 6
    ∧ tBatch1Ev = [TokenEvent.whitelistUpdated 4 true, TokenEvent.whitelistUpdated 5 true] := by
  have hrfl : batchUpdateWhitelist tInit0 1 [4, 0, 5] true = .ok (tBatch1, tBatch1Ev) := rfl
  obtain ⟨s', ev, heq, h0, hmem, hout, hev⟩ :=
    whitelist_zero_skip.2 tInit0 1 [4, 0, 5] true (by decide) (by decide)
  have hpair := hrfl.symm.trans heq
  injection hpair with hp
  rw [Prod.mk.injEq] at hp
  obtain ⟨hs, he⟩ := hp
  subst hs
  subst he
  refine ⟨whitelist_zero_skip.1 tInit0 1 true (by decide), h0, ?_, ?_, ?_, ?_⟩
  · exact hmem 4 (by decide) (by decide)
  · exact hmem 5 (by decide) (by decide)
  · exact hout 6 (by decide)
  · rw [hev]
    rfl

end YREC

namespace MS

/-- A handcrafted reachable-shape state: the 2-of-3 wallet with one
pending transaction already confirmed by owners 1 and 2 (count 2, at
threshold), not yet executed. -/
def msExec0 : State :=
  { self := 9, owners := [1, 2, 3], threshold := 2,
    isOwner := fun a => decide (a = 1 ∨ a = 2 ∨ a = 3),
    transactionCount := 1,
    transactions := fun i =>
      if i = 0 then
        { dst := 7, value := 0, data := [], executed := false,
          confirmationCount := 2, nonce := 0, txHash := (7, 0, [], 0, 9) }
      else default,
    confirmations := fun i a => decide (i = 0 ∧ (a = 1 ∨ a = 2)),
    nonce := 1, executedTransactionHashes := fun _ => false }

theorem execute_ok_fields {call : State → Bool} {s : State} {id : Nat} {s' : State}
    (h : executeTransaction call s id = .ok s') : s' = execMarked s id := by
  unfold executeTransaction at h
  repeat' split at h
  any_goals exact Except.noConfusion h
  injection h with h1
  exact h1.symm

/-- Claim C4: execution marks the transaction hash in the permanent replay
set, and sets the executed flag, in the state visible to the target call
(so the marking happens before the call); if the call fails the whole
execution returns an error, which under the transactional semantics
leaves the pre-execution state untouched, so the transaction stays
retryable (a later execution with a succeeding call goes through), and a
confirmation that triggers a failing execution also rolls back entirely,
confirmation state included. -/
theorem execute_marks_before_call_and_rolls_back
    (s : State) (id : Nat) (call : State → Bool)
    (hex : id < s.transactionCount)
    (hne : (s.transactions id).executed = false)
    (hth : s.threshold ≤ (s.transactions id).confirmationCount) :
    (execMarked s id).executedTransactionHashes ((s.transactions id).txHash) = true
    ∧ ((execMarked s id).transactions id).executed = true
    ∧ (call (execMarked s id) = true →
        executeTransaction call s id = .ok (execMarked s id))
    ∧ (call (execMarked s id) = false →
        executeTransaction call s id = .error .executionFailed)
    ∧ executeTransaction (fun _ => true) s id = .ok (execMarked s id)
    ∧ (∀ sender, s.isOwner sender = true → s.confirmations id sender = false →
        confirmTransaction (fun _ => false) s sender id = .error .executionFailed) := by
  refine ⟨by simp [execMarked], by simp [execMarked], ?_, ?_, ?_, ?_⟩
  · intro hc
    unfold executeTransaction
    rw [if_pos hex, if_neg (by simp [hne]), if_neg (by omega), if_pos hc]
  · intro hc
    unfold executeTransaction
    rw [if_pos hex, if_neg (by simp [hne]), if_neg (by omega), if_neg (by simp [hc])]
  · unfold executeTransaction
    rw [if_pos hex, if_neg (by simp [hne]), if_neg (by omega), if_pos rfl]
  · intro sender hown hcf
    unfold confirmTransaction
    rw [if_neg (by simp [hown]), if_pos hex, if_neg (by simp [hne]),
      if_neg (by simp [hcf])]
    simp only []
    rw [if_pos (by omega)]
    unfold executeTransaction
    rw [if_pos (by simpa using hex)]
    rw [if_neg (by simp [hne])]
    rw [if_neg (by simp; omega)]
    rw [if_neg (by simp)]

/-- Witness for C4 on the handcrafted at-threshold state: the marked
state the call sees, the rollback on a failing call, retryability with a
succeeding call, and the rollback of a confirmation whose triggered
execution fails. -/
theorem execute_marks_before_call_and_rolls_back_witness :
    (execMarked msExec0 0).executedTransactionHashes ((msExec0.transactions 0).txHash) = true
    ∧ ((execMarked msExec0 0).transactions 0).executed = true
    ∧ executeTransaction callF msExec0 0 = .error .executionFailed
    ∧ executeTransaction callT msExec0 0 = .ok (execMarked msExec0 0)
    ∧ confirmTransaction callF msExec0 3 0 = .error .executionFailed := by
  have hT := execute_marks_before_call_and_rolls_back msExec0 0 callT
    (by decide) (by decide) (by decide)
  have hF := execute_marks_before_call_and_rolls_back msExec0 0 callF
    (by decide) (by decide) (by decide)
  exact ⟨hT.1, hT.2.1, hF.2.2.2.1 rfl, hT.2.2.1 rfl, hF.2.2.2.2.2 3 (by decide) (by decide)⟩

end MS

namespace MS

theorem confirm_ok_fields {call : State → Bool} {s : State} {sender : Addr} {id : Nat}
    {s' : State} (h : confirmTransaction call s sender id = .ok s') :
    s'.transactionCount = s.transactionCount ∧ s'.nonce = s.nonce ∧
    s'.isOwner = s.isOwner ∧ s'.owners = s.owners ∧ s'.self = s.self ∧
    s'.threshold = s.threshold ∧
    (s'.transactions id).dst = (s.transactions id).dst ∧
    (s'.transactions id).value = (s.transactions id).value ∧
    (s'.transactions id).data = (s.transactions id).data ∧
    (s'.transactions id).nonce = (s.transactions id).nonce ∧
    (s'.transactions id).txHash = (s.transactions id).txHash ∧
    s'.confirmations id sender = true := by
  unfold confirmTransaction at h
  by_cases h1 : s.isOwner sender = false
  · rw [if_pos h1] at h; exact Except.noConfusion h
  rw [if_neg h1] at h
  by_cases h2 : id < s.transactionCount
  · rw [if_pos h2] at h
    by_cases h3 : (s.transactions id).executed = true
    · rw [if_pos h3] at h; exact Except.noConfusion h
    rw [if_neg h3] at h
    by_cases h4 : s.confirmations id sender = true
    · rw [if_pos h4] at h; exact Except.noConfusion h
    rw [if_neg h4] at h
    simp only [] at h
    by_cases h5 : s.threshold ≤ (s.transactions id).confirmationCount + 1
    · rw [if_pos h5] at h
      have he := execute_ok_fields h
      subst he
      refine ⟨rfl, rfl, rfl, rfl, rfl, rfl, ?_, ?_, ?_, ?_, ?_, ?_⟩
      all_goals simp [execMarked]
    · rw [if_neg h5] at h
      injection h with h1
      subst h1
      refine ⟨rfl, rfl, rfl, rfl, rfl, rfl, ?_, ?_, ?_, ?_, ?_, ?_⟩
      all_goals simp
  · rw [if_neg h2] at h
    exact Except.noConfusion h

theorem submit_ok_spec {call : State → Bool} {s : State} {sender : Addr}
    {dst value : Nat} {data : List Nat} {n id : Nat} {s' : State}
    (h : submitTransaction call s sender dst value data n = .ok (id, s')) :
    id = s.transactionCount ∧ n = s.nonce ∧
    s'.transactionCount = s.transactionCount + 1 ∧
    s'.nonce = s.nonce + 1 ∧
    s'.isOwner = s.isOwner ∧ s'.owners = s.owners ∧ s'.self = s.self ∧
    (s'.transactions id).dst = dst ∧
    (s'.transactions id).value = value ∧
    (s'.transactions id).data = data ∧
    (s'.transactions id).nonce = n ∧
    (s'.transactions id).txHash = txHashOf dst value data n s.self ∧
    s'.confirmations id sender = true := by
  unfold submitTransaction at h
  simp only [] at h
  by_cases h1 : s.isOwner sender = false
  · rw [if_pos h1] at h; exact Except.noConfusion h
  rw [if_neg h1] at h
  by_cases h2 : n ≠ s.nonce
  · rw [if_pos h2] at h; exact Except.noConfusion h
  rw [if_neg h2] at h
  by_cases h3 : s.executedTransactionHashes (txHashOf dst value data n s.self) = true
  · rw [if_pos h3] at h; exact Except.noConfusion h
  rw [if_neg h3] at h
  cases hc : confirmTransaction call
      { s with
        transactionCount := s.transactionCount + 1,
        transactions := fun i =>
          if i = s.transactionCount then
            { dst := dst, value := value, data := data, executed := false,
              confirmationCount := 0, nonce := n, txHash := txHashOf dst value data n s.self }
          else s.transactions i,
        nonce := s.nonce + 1 } sender s.transactionCount with
  | error e => rw [hc] at h; exact Except.noConfusion h
  | ok s2 =>
    rw [hc] at h
    injection h with hp
    rw [Prod.mk.injEq] at hp
    obtain ⟨hid, hs2⟩ := hp
    subst hs2
    subst hid
    obtain ⟨f1, f2, f3, f4, f5, f6, f7, f8, f9, f10, f11, f12⟩ := confirm_ok_fields hc
    refine ⟨rfl, by omega, by rw [f1], by rw [f2], by rw [f3], by rw [f4], by rw [f5],
      ?_, ?_, ?_, ?_, ?_, f12⟩
    · rw [f7]; simp
    · rw [f8]; simp
    · rw [f9]; simp
    · rw [f10]; simp
    · rw [f11]; simp

end MS

namespace MS

/-- Claim C5 statement. -/
theorem submit_nonce_strict :
    (∀ (s : State) (call : State → Bool) (sender dst value : Nat) (data : List Nat) (n : Nat),
       s.isOwner sender = true → n ≠ s.nonce →
       submitTransaction call s sender dst value data n = .error (.invalidNonce n s.nonce))
    ∧ (∀ (s : State) (call : State → Bool) (sender dst value : Nat) (data : List Nat)
         (n id : Nat) (s' : State),
       submitTransaction call s sender dst value data n = .ok (id, s') →
       id = s.transactionCount ∧ s'.transactionCount = s.transactionCount + 1 ∧
       s'.nonce = s.nonce + 1 ∧
       (s'.transactions id).dst = dst ∧ (s'.transactions id).value = value ∧
       (s'.transactions id).data = data ∧ (s'.transactions id).nonce = n ∧
       s'.confirmations id sender = true)
    ∧ (∀ (s : State) (call : State → Bool) (sender dst value : Nat) (data : List Nat)
         (id : Nat) (s' : State),
       submitTransaction call s sender dst value data 0 = .ok (id, s') →
       ∀ (call' : State → Bool) (sender' : Addr), s'.isOwner sender' = true →
       submitTransaction call' s' sender' dst value data 0
         = .error (.invalidNonce 0 s'.nonce)) := by
  refine ⟨?_, ?_, ?_⟩
  · intro s call sender dst value data n hown hne
    unfold submitTransaction
    rw [if_neg (by simp [hown]), if_pos hne]
  · intro s call sender dst value data n id s' h
    obtain ⟨g1, g2, g3, g4, g5, g6, g7, g8, g9, g10, g11, g12, g13⟩ := submit_ok_spec h
    exact ⟨g1, g3, g4, g8, g9, g10, g11, g13⟩
  · intro s call sender dst value data id s' h call' sender' hown'
    obtain ⟨g1, g2, g3, g4, g5⟩ := submit_ok_spec h
    unfold submitTransaction
    rw [if_neg (by simp [hown']), if_pos (by omega)]

/-- Witness C5. -/
theorem submit_nonce_strict_witness :
    submitTransaction callT msInit0 2 7 0 [] 5 = .error (.invalidNonce 5 msInit0.nonce)
    ∧ ((0 : Nat) = msInit0.transactionCount
       ∧ msState1.transactionCount = msInit0.transactionCount + 1
       ∧ msState1.nonce = msInit0.nonce + 1
       ∧ (msState1.transactions 0).dst = 7 ∧ (msState1.transactions 0).value = 0
       ∧ (msState1.transactions 0).data = [] ∧ (msState1.transactions 0).nonce = 0
       ∧ msState1.confirmations 0 1 = true)
    ∧ submitTransaction callT msState1 2 7 0 [] 0 = .error (.invalidNonce 0 msState1.nonce) :=
  ⟨submit_nonce_strict.1 msInit0 callT 2 7 0 [] 5 (by decide) (by decide),
   submit_nonce_strict.2.1 msInit0 callT 1 7 0 [] 0 0 msState1 rfl,
   submit_nonce_strict.2.2 msInit0 callT 1 7 0 [] 0 msState1 rfl callT 2 (by decide)⟩

/-- Claim C6 statement. -/
theorem confirm_threshold_sync_execution :
    (∀ (s : State) (call : State → Bool) (sender : Addr) (id : Nat),
       s.isOwner sender = true → id < s.transactionCount →
       (s.transactions id).executed = false → s.confirmations id sender = true →
       confirmTransaction call s sender id = .error .alreadyConfirmedByOwner)
    ∧ (∀ (s : State) (call : State → Bool) (sender : Addr) (id : Nat),
       s.isOwner sender = true → id < s.transactionCount →
       (s.transactions id).executed = true →
       confirmTransaction call s sender id = .error .alreadyExecuted)
    ∧ (∀ (s : State) (call : State → Bool) (sender : Addr) (id : Nat) (s' : State),
       confirmTransaction call s sender id = .ok s' →
       (s.transactions id).confirmationCount + 1 < s.threshold →
       s'.confirmations id sender = true
       ∧ (s'.transactions id).confirmationCount = (s.transactions id).confirmationCount + 1
       ∧ (s'.transactions id).executed = false)
    ∧ (∀ (s : State) (call : State → Bool) (sender : Addr) (id : Nat) (s' : State),
       confirmTransaction call s sender id = .ok s' →
       s.threshold ≤ (s.transactions id).confirmationCount + 1 →
       (s'.transactions id).executed = true
       ∧ s'.executedTransactionHashes ((s.transactions id).txHash) = true)
    ∧ (∀ (s' : State) (id : Nat), (s'.transactions id).executed = true →
       ∀ (call' : State → Bool) (sender' : Addr),
         isOkB (confirmTransaction call' s' sender' id) = false) := by
  refine ⟨?_, ?_, ?_, ?_, ?_⟩
  · intro s call sender id hown hid hexe hcf
    unfold confirmTransaction
    rw [if_neg (by simp [hown]), if_pos hid, if_neg (by simp [hexe]), if_pos hcf]
  · intro s call sender id hown hid hexe
    unfold confirmTransaction
    rw [if_neg (by simp [hown]), if_pos hid, if_pos hexe]
  · intro s call sender id s' h hlt
    unfold confirmTransaction at h
    by_cases h1 : s.isOwner sender = false
    · rw [if_pos h1] at h; exact Except.noConfusion h
    rw [if_neg h1] at h
    by_cases h2 : id < s.transactionCount
    · rw [if_pos h2] at h
      by_cases h3 : (s.transactions id).executed = true
      · rw [if_pos h3] at h; exact Except.noConfusion h
      rw [if_neg h3] at h
      by_cases h4 : s.confirmations id sender = true
      · rw [if_pos h4] at h; exact Except.noConfusion h
      rw [if_neg h4] at h
      simp only [] at h
      rw [if_neg (by omega)] at h
      injection h with h5
      subst h5
      refine ⟨by simp, by simp, ?_⟩
      simp only [Bool.not_eq_true] at h3
      simpa using h3
    · rw [if_neg h2] at h
      exact Except.noConfusion h
  · intro s call sender id s' h hth
    unfold confirmTransaction at h
    by_cases h1 : s.isOwner sender = false
    · rw [if_pos h1] at h; exact Except.noConfusion h
    rw [if_neg h1] at h
    by_cases h2 : id < s.transactionCount
    · rw [if_pos h2] at h
      by_cases h3 : (s.transactions id).executed = true
      · rw [if_pos h3] at h; exact Except.noConfusion h
      rw [if_neg h3] at h
      by_cases h4 : s.confirmations id sender = true
      · rw [if_pos h4] at h; exact Except.noConfusion h
      rw [if_neg h4] at h
      simp only [] at h
      rw [if_pos hth] at h
      have he := execute_ok_fields h
      subst he
      constructor
      · simp [execMarked]
      · simp [execMarked]
    · rw [if_neg h2] at h
      exact Except.noConfusion h
  · intro s' id hexe call' sender'
    unfold confirmTransaction
    by_cases h1 : s'.isOwner sender' = false
    · rw [if_pos h1]; rfl
    rw [if_neg h1]
    by_cases h2 : id < s'.transactionCount
    · rw [if_pos h2, if_pos hexe]; rfl
    · rw [if_neg h2]; rfl

/-- Witness C6. -/
theorem confirm_threshold_sync_execution_witness :
    confirmTransaction callT msState1 1 0 = .error .alreadyConfirmedByOwner
    ∧ confirmTransaction callT msState2 3 0 = .error .alreadyExecuted
    ∧ (msB2.confirmations 0 2 = true
       ∧ (msB2.transactions 0).confirmationCount = (msB1.transactions 0).confirmationCount + 1
       ∧ (msB2.transactions 0).executed = false)
    ∧ ((msState2.transactions 0).executed = true
       ∧ msState2.executedTransactionHashes ((msState1.transactions 0).txHash) = true)
    ∧ isOkB (confirmTransaction callT msState2 2 0) = false :=
  ⟨confirm_threshold_sync_execution.1 msState1 callT 1 0 (by decide) (by decide)
     (by decide) (by decide),
   confirm_threshold_sync_execution.2.1 msState2 callT 3 0 (by decide) (by decide) (by decide),
   confirm_threshold_sync_execution.2.2.1 msB1 callT 2 0 msB2 rfl (by decide),
   confirm_threshold_sync_execution.2.2.2.1 msState1 callT 2 0 msState2 rfl (by decide),
   confirm_threshold_sync_execution.2.2.2.2 msState2 0 (by decide) callT 2⟩

end MS

namespace MS

theorem countP_set_true {l : List Addr} {x : Addr} {p : Addr → Bool}
    (hn : l.Nodup) (hx : x ∈ l) (hp : p x = false) :
    l.countP (fun a => if a = x then true else p a) = l.countP p + 1 := by
  induction l with
  | nil => cases hx
  | cons b t ih =>
    rw [List.nodup_cons] at hn
    obtain ⟨hbt, hnt⟩ := hn
    rcases List.mem_cons.mp hx with hbx | hxt
    · subst hbx
      rw [List.countP_cons, List.countP_cons]
      have hq : (if x = x then true else p x) = true := by simp
      have hcong : t.countP (fun a => if a = x then true else p a) = t.countP p := by
        apply List.countP_congr
        intro a ha
        have hax : a ≠ x := fun hh => hbt (hh ▸ ha)
        simp [hax]
      rw [hq, hp, hcong]
      simp
    · have hbx : b ≠ x := fun hh => hbt (hh ▸ hxt)
      rw [List.countP_cons, List.countP_cons, ih hnt hxt]
      have hq : (if b = x then true else p b) = p b := by rw [if_neg hbx]
      rw [hq]
      omega

theorem countP_set_false {l : List Addr} {x : Addr} {p : Addr → Bool}
    (hn : l.Nodup) (hx : x ∈ l) (hp : p x = true) :
    l.countP (fun a => if a = x then false else p a) + 1 = l.countP p := by
  induction l with
  | nil => cases hx
  | cons b t ih =>
    rw [List.nodup_cons] at hn
    obtain ⟨hbt, hnt⟩ := hn
    rcases List.mem_cons.mp hx with hbx | hxt
    · subst hbx
      rw [List.countP_cons, List.countP_cons]
      have hq : (if x = x then false else p x) = false := by simp
      have hcong : t.countP (fun a => if a = x then false else p a) = t.countP p := by
        apply List.countP_congr
        intro a ha
        have hax : a ≠ x := fun hh => hbt (hh ▸ ha)
        simp [hax]
      rw [hq, hp, hcong]
      simp
    · have hbx : b ≠ x := fun hh => hbt (hh ▸ hxt)
      rw [List.countP_cons, List.countP_cons, ← ih hnt hxt]
      have hq : (if b = x then false else p b) = p b := by rw [if_neg hbx]
      rw [hq]
      omega

theorem addOwners_spec :
    ∀ (l : List Addr) (isO : Addr → Bool) (acc : List Addr)
      (res : (Addr → Bool) × List Addr),
      addOwners l isO acc = .ok res →
      (∀ a, isO a = true ↔ a ∈ acc) → acc.Nodup →
      (∀ a, res.1 a = true ↔ a ∈ res.2) ∧ res.2.Nodup := by
  intro l
  induction l with
  | nil =>
    intro isO acc res h hiff hnd
    unfold addOwners at h
    injection h with h1
    subst h1
    exact ⟨hiff, hnd⟩
  | cons o rest ih =>
    intro isO acc res h hiff hnd
    unfold addOwners at h
    by_cases h1 : o = 0
    · rw [if_pos h1] at h; exact Except.noConfusion h
    rw [if_neg h1] at h
    by_cases h2 : isO o = true
    · rw [if_pos h2] at h; exact Except.noConfusion h
    rw [if_neg h2] at h
    have ho : o ∉ acc := fun hc => h2 ((hiff o).mpr hc)
    apply ih _ _ _ h
    · intro a
      by_cases hao : a = o
      · subst hao
        simp
      · rw [if_neg hao, hiff a]
        simp [List.mem_append, hao]
    · simp [List.nodup_append, hnd, ho]

theorem mkMultisig_WF {self : Addr} {ownerArgs : List Addr} {thr : Nat} {s : State}
    (h : mkMultisig self ownerArgs thr = .ok s) : WF s := by
  unfold mkMultisig at h
  split at h
  · exact Except.noConfusion h
  cases hao : addOwners ownerArgs (fun _ => false) [] with
  | error e => rw [hao] at h; exact Except.noConfusion h
  | ok res =>
    rw [hao] at h
    obtain ⟨isO, ows⟩ := res
    simp only [] at h
    split at h
    · injection h with h1
      subst h1
      obtain ⟨hiff, hnd⟩ := addOwners_spec ownerArgs _ [] (isO, ows) hao (by simp) List.nodup_nil
      refine ⟨hnd, hiff, ?_, ?_⟩
      · intro id hid a
        rfl
      · intro id hid
        exact absurd hid (by simp)
    · exact Except.noConfusion h

end MS

namespace MS

theorem execMarked_WF {s : State} {id : Nat} (hwf : WF s) : WF (execMarked s id) := by
  refine ⟨hwf.nodup, hwf.ownerMem, hwf.fresh, ?_⟩
  intro j hj
  have hc := hwf.counts j hj
  unfold ConfCount at *
  by_cases hji : j = id
  · subst hji
    simpa [execMarked] using hc
  · simpa [execMarked, hji] using hc

theorem confirm_WF {call : State → Bool} {s : State} {sender : Addr} {id : Nat} {s' : State}
    (hwf : WF s) (h : confirmTransaction call s sender id = .ok s') : WF s' := by
  unfold confirmTransaction at h
  by_cases h1 : s.isOwner sender = false
  · rw [if_pos h1] at h; exact Except.noConfusion h
  rw [if_neg h1] at h
  by_cases h2 : id < s.transactionCount
  swap
  · rw [if_neg h2] at h; exact Except.noConfusion h
  rw [if_pos h2] at h
  by_cases h3 : (s.transactions id).executed = true
  · rw [if_pos h3] at h; exact Except.noConfusion h
  rw [if_neg h3] at h
  by_cases h4 : s.confirmations id sender = true
  · rw [if_pos h4] at h; exact Except.noConfusion h
  rw [if_neg h4] at h
  simp only [] at h
  have hown : s.isOwner sender = true := by simpa using h1
  have hmem : sender ∈ s.owners := (hwf.ownerMem sender).mp hown
  have hcf : s.confirmations id sender = false := by simpa using h4
  have hw1 : WF { s with
      confirmations := fun i a => if i = id ∧ a = sender then true else s.confirmations i a,
      transactions := fun i =>
        if i = id then
          { s.transactions id with
            confirmationCount := (s.transactions id).confirmationCount + 1 }
        else s.transactions i } := by
    refine ⟨hwf.nodup, hwf.ownerMem, ?_, ?_⟩
    · intro j hj a
      have hj' : s.transactionCount ≤ j := hj
      have hnand : ¬(j = id ∧ a = sender) := by
        rintro ⟨rfl, _⟩
        omega
      dsimp only
      rw [if_neg hnand]
      exact hwf.fresh j hj' a
    · intro j hj
      have hj' : j < s.transactionCount := hj
      have hc := hwf.counts j hj'
      unfold ConfCount at *
      by_cases hji : j = id
      · subst hji
        dsimp only
        rw [if_pos rfl]
        have hpred : s.owners.countP
              (fun a => if j = j ∧ a = sender then true else s.confirmations j a)
            = s.owners.countP (fun a => if a = sender then true else s.confirmations j a) := by
          apply List.countP_congr
          intro a ha
          by_cases has : a = sender <;> simp [has]
        rw [hpred, countP_set_true hwf.nodup hmem hcf]
        show (s.transactions j).confirmationCount + 1
            = s.owners.countP (fun a => s.confirmations j a) + 1
        omega
      · dsimp only
        rw [if_neg hji]
        have hpred : s.owners.countP
              (fun a => if j = id ∧ a = sender then true else s.confirmations j a)
            = s.owners.countP (fun a => s.confirmations j a) := by
          apply List.countP_congr
          intro a ha
          simp [hji]
        rw [hpred]
        exact hc
  by_cases h5 : s.threshold ≤ (s.transactions id).confirmationCount + 1
  · rw [if_pos h5] at h
    have he := execute_ok_fields h
    subst he
    exact execMarked_WF hw1
  · rw [if_neg h5] at h
    injection h with h6
    subst h6
    exact hw1

theorem revoke_WF {s : State} {sender : Addr} {id : Nat} {s' : State}
    (hwf : WF s) (h : revokeConfirmation s sender id = .ok s') : WF s' := by
  unfold revokeConfirmation at h
  by_cases h1 : s.isOwner sender = false
  · rw [if_pos h1] at h; exact Except.noConfusion h
  rw [if_neg h1] at h
  by_cases h2 : id < s.transactionCount
  swap
  · rw [if_neg h2] at h; exact Except.noConfusion h
  rw [if_pos h2] at h
  by_cases h3 : (s.transactions id).executed = true
  · rw [if_pos h3] at h; exact Except.noConfusion h
  rw [if_neg h3] at h
  by_cases h4 : s.confirmations id sender = false
  · rw [if_pos h4] at h; exact Except.noConfusion h
  rw [if_neg h4] at h
  by_cases h5 : (s.transactions id).confirmationCount = 0
  · rw [if_pos h5] at h; exact Except.noConfusion h
  rw [if_neg h5] at h
  injection h with h6
  subst h6
  have hown : s.isOwner sender = true := by simpa using h1
  have hmem : sender ∈ s.owners := (hwf.ownerMem sender).mp hown
  have hcf : s.confirmations id sender = true := by simpa using h4
  refine ⟨hwf.nodup, hwf.ownerMem, ?_, ?_⟩
  · intro j hj a
    have hj' : s.transactionCount ≤ j := hj
    have hnand : ¬(j = id ∧ a = sender) := by
      rintro ⟨rfl, _⟩
      omega
    dsimp only
    rw [if_neg hnand]
    exact hwf.fresh j hj' a
  · intro j hj
    have hj' : j < s.transactionCount := hj
    have hc := hwf.counts j hj'
    unfold ConfCount at *
    by_cases hji : j = id
    · subst hji
      dsimp only
      rw [if_pos rfl]
      have hpred : s.owners.countP
            (fun a => if j = j ∧ a = sender then false else s.confirmations j a)
          = s.owners.countP (fun a => if a = sender then false else s.confirmations j a) := by
        apply List.countP_congr
        intro a ha
        by_cases has : a = sender <;> simp [has]
      rw [hpred]
      have hset : s.owners.countP
            (fun a => if a = sender then false else s.confirmations j a) + 1
          = s.owners.countP (fun a => s.confirmations j a) :=
        @countP_set_false s.owners sender (fun a => s.confirmations j a) hwf.nodup hmem hcf
      have hc2 : (s.transactions j).confirmationCount
          = s.owners.countP (fun a => s.confirmations j a) := hc
      have hc0 : (s.transactions j).confirmationCount ≠ 0 := h5
      show (s.transactions j).confirmationCount - 1
          = s.owners.countP (fun a => if a = sender then false else s.confirmations j a)
      omega
    · dsimp only
      rw [if_neg hji]
      have hpred : s.owners.countP
            (fun a => if j = id ∧ a = sender then false else s.confirmations j a)
          = s.owners.countP (fun a => s.confirmations j a) := by
        apply List.countP_congr
        intro a ha
        simp [hji]
      rw [hpred]
      exact hc

theorem submit_WF {call : State → Bool} {s : State} {sender : Addr}
    {dst value : Nat} {data : List Nat} {n id : Nat} {s' : State}
    (hwf : WF s) (h : submitTransaction call s sender dst value data n = .ok (id, s')) :
    WF s' := by
  unfold submitTransaction at h
  simp only [] at h
  by_cases h1 : s.isOwner sender = false
  · rw [if_pos h1] at h; exact Except.noConfusion h
  rw [if_neg h1] at h
  by_cases h2 : n ≠ s.nonce
  · rw [if_pos h2] at h; exact Except.noConfusion h
  rw [if_neg h2] at h
  by_cases h3 : s.executedTransactionHashes (txHashOf dst value data n s.self) = true
  · rw [if_pos h3] at h; exact Except.noConfusion h
  rw [if_neg h3] at h
  have hw1 : WF { s with
      transactionCount := s.transactionCount + 1,
      transactions := fun i =>
        if i = s.transactionCount then
          { dst := dst, value := value, data := data, executed := false,
            confirmationCount := 0, nonce := n, txHash := txHashOf dst value data n s.self }
        else s.transactions i,
      nonce := s.nonce + 1 } := by
    refine ⟨hwf.nodup, hwf.ownerMem, ?_, ?_⟩
    · intro j hj a
      have hj' : s.transactionCount + 1 ≤ j := hj
      exact hwf.fresh j (by omega) a
    · intro j hj
      have hj' : j < s.transactionCount + 1 := hj
      unfold ConfCount
      by_cases hji : j = s.transactionCount
      · dsimp only
        rw [if_pos hji]
        have hz : s.owners.countP (fun a => s.confirmations j a) = 0 := by
          rw [List.countP_eq_zero]
          intro a ha
          simp [hwf.fresh j (by omega) a]
        show 0 = s.owners.countP (fun a => s.confirmations j a)
        omega
      · dsimp only
        rw [if_neg hji]
        exact hwf.counts j (by omega)
  cases hc : confirmTransaction call
      { s with
        transactionCount := s.transactionCount + 1,
        transactions := fun i =>
          if i = s.transactionCount then
            { dst := dst, value := value, data := data, executed := false,
              confirmationCount := 0, nonce := n, txHash := txHashOf dst value data n s.self }
          else s.transactions i,
        nonce := s.nonce + 1 } sender s.transactionCount with
  | error e => rw [hc] at h; exact Except.noConfusion h
  | ok s2 =>
    rw [hc] at h
    injection h with hp
    rw [Prod.mk.injEq] at hp
    obtain ⟨hid, hs2⟩ := hp
    subst hs2
    exact confirm_WF hw1 hc

theorem reachable_WF {s : State} (h : Reachable s) : WF s := by
  induction h with
  | start self ownerArgs thr s hmk => exact mkMultisig_WF hmk
  | submitStep s call sender dst value data n id s' hr hstep ih => exact submit_WF ih hstep
  | confirmStep s call sender id s' hr hstep ih => exact confirm_WF ih hstep
  | revokeStep s sender id s' hr hstep ih => exact revoke_WF ih hstep

end MS

namespace MS

/-- Claim C9: in every reachable multisig state, the stored
`confirmationCount` of every existing transaction equals the number of
owners whose per-owner confirmation flag for it is set, and each of
submit, confirm, revoke and execute preserves this equality from any
well-formed state. -/
theorem confirmation_count_matches_flags :
    (∀ s : State, Reachable s → ∀ id, id < s.transactionCount →
       (s.transactions id).confirmationCount
         = s.owners.countP (fun a => s.confirmations id a))
    ∧ (∀ (s : State) (call : State → Bool) (sender dst value : Nat) (data : List Nat)
         (n id : Nat) (s' : State), WF s →
       submitTransaction call s sender dst value data n = .ok (id, s') →
       ∀ j, j < s'.transactionCount →
         (s'.transactions j).confirmationCount
           = s'.owners.countP (fun a => s'.confirmations j a))
    ∧ (∀ (s : State) (call : State → Bool) (sender : Addr) (id : Nat) (s' : State), WF s →
       confirmTransaction call s sender id = .ok s' →
       ∀ j, j < s'.transactionCount →
         (s'.transactions j).confirmationCount
           = s'.owners.countP (fun a => s'.confirmations j a))
    ∧ (∀ (s : State) (sender : Addr) (id : Nat) (s' : State), WF s →
       revokeConfirmation s sender id = .ok s' →
       ∀ j, j < s'.transactionCount →
         (s'.transactions j).confirmationCount
           = s'.owners.countP (fun a => s'.confirmations j a))
    ∧ (∀ (s : State) (call : State → Bool) (id : Nat) (s' : State), WF s →
       executeTransaction call s id = .ok s' →
       ∀ j, j < s'.transactionCount →
         (s'.transactions j).confirmationCount
           = s'.owners.countP (fun a => s'.confirmations j a)) := by
  refine ⟨?_, ?_, ?_, ?_, ?_⟩
  · intro s hr id hid
    exact (reachable_WF hr).counts id hid
  · intro s call sender dst value data n id s' hwf h j hj
    exact (submit_WF hwf h).counts j hj
  · intro s call sender id s' hwf h j hj
    exact (confirm_WF hwf h).counts j hj
  · intro s sender id s' hwf h j hj
    exact (revoke_WF hwf h).counts j hj
  · intro s call id s' hwf h j hj
    have he := execute_ok_fields h
    subst he
    exact (execMarked_WF hwf).counts j hj

/-- Witness for C9: the invariant evaluated on the concrete reachable
state with one submitted, auto-confirmed transaction. -/
theorem confirmation_count_matches_flags_witness :
    (msState1.transactions 0).confirmationCount
      = msState1.owners.countP (fun a => msState1.confirmations 0 a) :=
  confirmation_count_matches_flags.1 msState1
    (Reachable.submitStep msInit0 callT 1 7 0 [] 0 0 msState1
      (Reachable.start 9 [1, 2, 3] 2 msInit0 rfl) rfl)
    0 (by decide)

end MS
